import Mathlib

/-!
Verification development for the funpy repository (files
`funpy/trig/trigtech.py` and `newton/deflated_residual.py`).

Shallow embedding conventions:
* Floating-point numbers are modelled as exact rationals `ℚ`; complex
  numbers as Gaussian rationals `GQ` (pairs of rationals with complex
  multiplication).  The irrational constant `np.pi` is carried as an
  abstract element `piv : GQ` passed to the definitions that use it.
* Opaque numeric primitives that the repository imports from modules not
  belonging to the two source files (the FFT pair `vals2coeffs` /
  `coeffs2vals`, `np.hypot`, complex `np.abs`, `standardChopCmplx`,
  `simplify_coeffs`, the `prolong` helper of `trig_simplify`, `quadwts`,
  `h1norm`, `Functional`, the collocation object) are taken as explicit
  function parameters of the embedded operations.
* 2-D numpy arrays are `List (List _)` in row-major order; a mutation of
  a row of `f.coeffs` is modelled by returning the updated matrix.
* Python exceptions are modelled by `Except PyErr`.
-/

/-- Gaussian rational: an exact model of a complex floating-point scalar. -/
structure GQ where
  re : ℚ
  im : ℚ
deriving DecidableEq, Repr

/-- Complex addition on Gaussian rationals. -/
def gadd (a b : GQ) : GQ := ⟨a.re + b.re, a.im + b.im⟩

/-- Complex multiplication on Gaussian rationals. -/
def gmul (a b : GQ) : GQ := ⟨a.re * b.re - a.im * b.im, a.re * b.im + a.im * b.re⟩

/-- Complex negation. -/
def gneg (a : GQ) : GQ := ⟨-a.re, -a.im⟩

/-- Complex subtraction. -/
def gsub (a b : GQ) : GQ := gadd a (gneg b)

/-- Complex multiplicative inverse ((0 : GQ) is mapped to 0, as for `ℚ`). -/
def ginv (a : GQ) : GQ := ⟨a.re / (a.re ^ 2 + a.im ^ 2), -a.im / (a.re ^ 2 + a.im ^ 2)⟩

/-- Complex division. -/
def gdiv (a b : GQ) : GQ := gmul a (ginv b)

instance : Zero GQ := ⟨⟨0, 0⟩⟩

instance : One GQ := ⟨⟨1, 0⟩⟩

instance : Add GQ := ⟨gadd⟩

instance : Mul GQ := ⟨gmul⟩

instance : Neg GQ := ⟨gneg⟩

instance : Sub GQ := ⟨gsub⟩

instance : Div GQ := ⟨gdiv⟩

instance : Inv GQ := ⟨ginv⟩

/-- Natural-number power by repeated multiplication. -/
def gpow (a : GQ) : ℕ → GQ
  | 0 => 1
  | n + 1 => gmul a (gpow a n)

instance : Pow GQ ℕ := ⟨gpow⟩

/-- The imaginary unit `1j`. -/
def gI : GQ := ⟨0, 1⟩

/-- The scalar `-1j`. -/
def gnegI : GQ := ⟨0, -1⟩

/-- Embedding of a rational into the Gaussian rationals. -/
def ratC (q : ℚ) : GQ := ⟨q, 0⟩

/-- Embedding of an integer into the Gaussian rationals. -/
def intC (k : ℤ) : GQ := ⟨(k : ℚ), 0⟩

/-- Complex conjugation (`np.conj`). -/
def gconj (a : GQ) : GQ := ⟨a.re, -a.im⟩

/-- Scaling of a complex scalar by a real one. -/
def gscaleQ (q : ℚ) (a : GQ) : GQ := ⟨q * a.re, q * a.im⟩

/-- Sum of a list of Gaussian rationals. -/
def gsum (l : List GQ) : GQ := l.foldr gadd 0

/-- A 2-D complex array in row-major order. -/
abbrev Mat := List (List GQ)

/-- A 1-D real array. -/
abbrev QVec := List ℚ

/-- A 2-D real array in row-major order. -/
abbrev QMat := List (List ℚ)

/-- Number of columns of a matrix (width of its first row). -/
def widthOf (A : Mat) : ℕ := (A.headD []).length

/-- Column `k` of a matrix, with out-of-range entries read as `0`. -/
def colOf (A : Mat) (k : ℕ) : List GQ := A.map (fun r => r.getD k 0)

/-- Transpose of a matrix (via `widthOf` columns). -/
def transposeM (A : Mat) : Mat := (List.range (widthOf A)).map (fun j => colOf A j)

/-- Dot product of two complex vectors (zip-truncating). -/
def dotG (xs ys : List GQ) : GQ := gsum (List.zipWith gmul xs ys)

/-- Matrix product (rows of `A` against columns of `B`). -/
def matmulG (A B : Mat) : Mat :=
  A.map (fun row => (List.range (widthOf B)).map (fun j => dotG row (colOf B j)))

/-- Apply a row transformer to row `i` of a matrix, leaving other rows alone.
This models an in-place numpy row assignment such as `c[i, :] = 0`. -/
def updRow : Mat → ℕ → (List GQ → List GQ) → Mat
  | [], _, _ => []
  | r :: rs, 0, g => g r :: rs
  | r :: rs, i + 1, g => r :: updRow rs i g

/-- Maximum of a list of rationals, `0` for the empty list. -/
def maxQ (l : List ℚ) : ℚ := l.foldr max 0

/-- Python exceptions that the embedded code can raise. -/
inductive PyErr where
  | assertionError (msg : String)
  | attributeError
  | notImplementedError
  | runtimeError (msg : String)
  | indexError
  | nameError
deriving DecidableEq, Repr

/-- `float(bool)` as numpy performs it when a boolean meets a float comparison. -/
def boolToRat (b : Bool) : ℚ := if b then 1 else 0

/-- The default tolerance `eps = 1e-10` of `trigtech.__init__`. -/
def defEps : ℚ := 1 / 10 ^ 10

/-- The `trigtech` value type: coefficients, values, happiness and realness
flags, and the scale parameters (`maxLength` is the constant 4096, kept as
`maxLength` below). -/
structure Trig where
  coeffs : Mat
  values : Mat
  ishappy : Bool
  isReal : List Bool
  eps : ℚ
  vscale : ℚ
  hscale : ℚ
deriving DecidableEq, Repr

/-- `trigtech.maxLength` (set in `__init__`). -/
def maxLength : ℕ := 4096

/-- Force the real-flagged columns of a value array to be real:
`values[:, isReal] = np.real(values[:, isReal])`. -/
def forceReal (values : Mat) (flags : List Bool) : Mat :=
  values.map (fun row => List.zipWith (fun z b => if b then (⟨z.re, 0⟩ : GQ) else z) row flags)

/-- `trigtech.get_vscale` per column: `np.abs(coeffs)` when `n == 1`, else the
maximum of `np.hypot(re, im)` over the values recomputed from the coefficients.
`c2v` is the opaque inverse transform `coeffs2vals`, `hyp` is `np.hypot`,
`cabs` is complex `np.abs`. -/
def vscaleCols (c2v : Mat → Mat) (hyp : ℚ → ℚ → ℚ) (cabs : GQ → ℚ) (coeffs : Mat) : List ℚ :=
  if coeffs.length = 1 then
    (List.range (widthOf coeffs)).map (fun k => cabs ((coeffs.headD []).getD k 0))
  else
    let vals := c2v coeffs
    (List.range (widthOf coeffs)).map (fun k => maxQ ((colOf vals k).map (fun z => hyp z.re z.im)))

/-- `trigtech.get_isreal(vscl)` per column:
`max |imag(values)| <= 3 * eps * vscl`. -/
def isRealCols (eps : ℚ) (vscl : List ℚ) (values : Mat) : List Bool :=
  (List.range (widthOf values)).map
    (fun k => decide (maxQ ((colOf values k).map (fun z => |z.im|)) ≤ 3 * eps * vscl.getD k 0))

/-- The `trigtech.__init__` branch that builds a representation from an
explicit coefficient array (`coeffs=...`): values are recomputed by the
opaque inverse transform, the result is unconditionally marked happy
(line `self.ishappy = True` of the source: "we are always happy"), and the
realness flags are recomputed from the values.  Any `ishappy` keyword the
caller supplies is overwritten by that line. -/
def mkTrigFromCoeffs (c2v : Mat → Mat) (hyp : ℚ → ℚ → ℚ) (cabs : GQ → ℚ)
    (coeffs : Mat) : Trig :=
  let values := c2v coeffs
  let vscl0 := vscaleCols c2v hyp cabs coeffs
  let vscl := vscl0.map (fun q => max defEps q)
  let flags := isRealCols defEps vscl values
  { coeffs := coeffs
    values := forceReal values flags
    ishappy := true
    isReal := flags
    eps := defEps
    vscale := defEps
    hscale := defEps }

/-- Wavenumber list of `np.diff`'s implementation: `arange(-(m-1)/2, m/2)` for
odd length, `arange(-m/2, m/2)` for even length. -/
def waveNumbers (n : ℕ) : List ℤ :=
  if n % 2 = 1 then (List.range n).map (fun j => Int.ofNat j - ((n : ℤ) - 1) / 2)
  else (List.range n).map (fun j => Int.ofNat j - (n : ℤ) / 2)

/-- `np.diff` on a trigtech (`diff(f, n=1)` of the source): multiply the
coefficients row-wise by `(1j * pi * waveNumber) ** order` and construct a new
trigtech from the resulting coefficient array (which the constructor marks
happy).  `piv` stands for `np.pi`. -/
def np_diff (c2v : Mat → Mat) (hyp : ℚ → ℚ → ℚ) (cabs : GQ → ℚ) (piv : GQ)
    (f : Trig) (order : ℕ) : Trig :=
  let n := f.coeffs.length
  let c := List.zipWith (fun k row => row.map (fun z => gmul z (gpow (gmul (gmul gI piv) (intC k)) order)))
    (waveNumbers n) f.coeffs
  mkTrigFromCoeffs c2v hyp cabs c

/-- The index probed by `np.cumsum`'s zero-mean check: `n//2 + 1` for even
`n`, `(n+1)//2` for odd `n` (one past `trigtech.const_index`, which is `n//2`
for even and `(n+1)//2 - 1` for odd `n`). -/
def cumsumCheckIndex (n : ℕ) : ℕ := if n % 2 = 0 then n / 2 + 1 else (n + 1) / 2

/-- The raise condition of `np.cumsum`:
`np.any(np.abs(f.coeffs[ind, :])) > 1e1 * f.vscale * f.eps`.  `np.any` yields
a boolean, which numpy converts to `0.0/1.0` for the comparison with the
tolerance, so the check fires iff some entry of row `ind` has nonzero
absolute value and `10 * vscale * eps < 1`. -/
def cumsumRaises (cabs : GQ → ℚ) (f : Trig) (row : List GQ) : Bool :=
  decide (boolToRat (row.any (fun z => !(cabs z == 0))) > 10 * f.vscale * f.eps)

/-- The state of `f.coeffs` after a successful `np.cumsum(f)` call: the source
aliases `c = f.coeffs` and assigns rows of `c` in place before any fresh array
is allocated.  Even length: `c[n//2, :] = 0` then `c[0, :] = 0.5 * c[0, :]`;
odd length: `c[(n+1)//2, :] = 0`. -/
def cumsumMutatedCoeffs (f : Trig) : Mat :=
  let n := f.coeffs.length
  if n % 2 = 0 then
    updRow (updRow f.coeffs (n / 2) (List.map (fun _ => 0))) 0 (List.map (fun z => gscaleQ (1 / 2) z))
  else
    updRow f.coeffs ((n + 1) / 2) (List.map (fun _ => 0))

/-- `np.cumsum(f, m)` of the source, returning both the final state of the
argument's coefficient array (first component: the source mutates `f.coeffs`
in place through the alias `c`) and the freshly constructed antiderivative.
Out-of-range row access raises `IndexError` as in numpy; the (mis-indexed)
zero-mean check raises `RuntimeError`.  `piv` stands for `np.pi`. -/
def np_cumsum (c2v : Mat → Mat) (hyp : ℚ → ℚ → ℚ) (cabs : GQ → ℚ) (piv : GQ)
    (f : Trig) (mOrd : ℕ) : Except PyErr (Mat × Trig) :=
  let n := f.coeffs.length
  let isEven := n % 2 = 0
  let ind := cumsumCheckIndex n
  match f.coeffs[ind]? with
  | none => .error .indexError
  | some row =>
    if cumsumRaises cabs f row then
      .error (.runtimeError ("Indefinite integrals are only possible for trigtech objects with zero mean!"))
    else
      -- in-place mutations of `f.coeffs` through the alias `c`
      let fc := cumsumMutatedCoeffs f
      -- for even length, expand to a symmetric array of length n+1
      let cw := if isEven then fc ++ [fc.headD []] else fc
      let highestDegree := if isEven then n / 2 else (n - 1) / 2
      -- integrationFactor = (-1j / sumIndices / np.pi) ** m, then the entry
      -- of the zeroth wavenumber is overwritten with 0
      let rawFactors := (List.range (2 * highestDegree + 1)).map
        (fun j => gpow (gdiv (gdiv gnegI (intC ((j : ℤ) - highestDegree))) piv) mOrd)
      let factors := rawFactors.set highestDegree 0
      let c2 := List.zipWith (fun fac r => r.map (fun z => gmul z fac)) factors cw
      -- odd-order cumsum of an even-length input: zero the band edges
      let c3 := if mOrd % 2 = 1 ∧ isEven then updRow (updRow c2 0 (List.map (fun _ => 0))) n (List.map (fun _ => 0)) else c2
      -- fix the constant term: c[highestDegree+1, :] = -np.sum(c * (-1)**sumIndices)
      let signs := (List.range (2 * highestDegree + 1)).map (fun j => gpow (gneg 1) (j + highestDegree))
      let total := gneg (gsum (List.zipWith (fun s r => gsum (r.map (fun z => gmul s z))) signs c3))
      let c4 := updRow c3 (highestDegree + 1) (List.map (fun _ => total))
      let c5 := if isEven then c4.dropLast else c4
      .ok (fc, mkTrigFromCoeffs c2v hyp cabs c5)

/-- The summed-reverse folding of one coefficient column performed at the top
of `trigtech.happy`: take `np.abs` of the reversed column, fold the
positive/negative wavenumber pairs symmetrically around the zero mode
(separate even/odd branches), flip, and duplicate every entry except the
first (`np.kron(coeffs[1:, :], [[1], [1]])`). -/
def foldedCol (cabs : GQ → ℚ) (col : List GQ) : List ℚ :=
  let n := col.length
  let r := (col.map cabs).reverse
  let folded :=
    if n % 2 = 0 then
      [r.getD (n - 1) 0] ++
        (List.range (n / 2 - 1)).map (fun t => r.getD (n - 2 - t) 0 + r.getD t 0) ++
        [r.getD (n / 2 - 1) 0]
    else
      (List.range ((n + 1) / 2 - 1)).map (fun t => r.getD (n - 1 - t) 0 + r.getD t 0) ++
        [r.getD ((n + 1) / 2 - 1) 0]
  match folded.reverse with
  | [] => []
  | h :: t => h :: (t.map (fun x => [x, x])).flatten

/-- The per-column loop of `trigtech.happy`: chop each column, record
happiness (`cutoff < n`) and the halved cutoff, and break on the first
unhappy column (later columns keep their initialized zero cutoff, which
cannot affect the final maximum). -/
def happyLoop (chop : List GQ → ℚ → ℕ) (n : ℕ) (tol : ℚ) : List (List GQ) → List Bool × List ℕ
  | [] => ([], [])
  | c :: rest =>
    let cut := chop c tol
    if cut < n then
      let p := happyLoop chop n tol rest
      (true :: p.1, cut / 2 :: p.2)
    else ([false], [cut / 2])

/-- `trigtech.happy` as a function of the coefficient array: computes the
summed-reverse folding (which the source then leaves unused), applies the
external `standardChopCmplx` primitive to each column of the ORIGINAL
coefficient array (`self.coeffs[:, k]`) with tolerance `eps`, and returns
`(np.all(ishappy), 2 * max(cutoff) + 1)`. -/
def happyPair (cabs : GQ → ℚ) (chop : List GQ → ℚ → ℕ) (eps : ℚ) (coeffs : Mat) : Bool × ℕ :=
  let n := coeffs.length
  let m := widthOf coeffs
  let cols := (List.range m).map (fun k => colOf coeffs k)
  let _fold := cols.map (foldedCol cabs)
  let p := happyLoop chop n eps cols
  (p.1.all id, 2 * p.2.foldr max 0 + 1)

/-- The happiness check as claim C4 words it: identical to `happyPair` except
that the chop primitive is applied to the folded representation of each
column rather than to the raw column. -/
def happyPairFolded (cabs : GQ → ℚ) (chop : List GQ → ℚ → ℕ) (eps : ℚ) (coeffs : Mat) : Bool × ℕ :=
  let n := coeffs.length
  let m := widthOf coeffs
  let cols := ((List.range m).map (fun k => colOf coeffs k)).map
    (fun c => (foldedCol cabs c).map ratC)
  let p := happyLoop chop n eps cols
  (p.1.all id, 2 * p.2.foldr max 0 + 1)

/-- Drop the last `k` elements of a list (the slice `xs[:-k]` with `k > 0`). -/
def dropLastN (xs : List (List GQ)) (k : ℕ) : List (List GQ) := xs.take (xs.length - k)

/-- `trigtech.prolong(Nout)`: resize the stored length; even input lengths
are first symmetrized (`[0.5*c[0]; c[1:]; 0.5*c[0]]`), then the coefficients
are zero-padded (increase) or chopped (decrease, doubling the retained edge
row when the removed counts are asymmetric); finally the values are
recomputed through the opaque inverse transform and real-flagged columns are
re-forced real. -/
def prolongT (c2v : Mat → Mat) (f : Trig) (Nout : ℕ) : Trig :=
  let Nin := f.coeffs.length
  if Nout = Nin then f
  else
    let c0 := f.coeffs
    let symm : Mat × ℕ :=
      if Nin % 2 = 0 then
        (((c0.headD []).map (fun z => gscaleQ (1 / 2) z)) :: c0.tail ++
          [(c0.headD []).map (fun z => gscaleQ (1 / 2) z)], Nin + 1)
      else (c0, Nin)
    let c := symm.1
    let Nin1 := symm.2
    let c1 :=
      if Nin1 = Nout then c
      else if Nout > Nin1 then
        let kup := (Nout - Nin1 + 1) / 2
        let kdown := (Nout - Nin1) / 2
        (List.replicate kup (List.replicate (widthOf c) (0 : GQ))) ++ c ++
          (List.replicate kdown (List.replicate (widthOf c) (0 : GQ)))
      else
        let kup := (Nin1 - Nout) / 2
        let kdown := (Nin1 - Nout + 1) / 2
        let cc := dropLastN (c.drop kup) kdown
        if kup < kdown then updRow cc 0 (List.map (fun z => gscaleQ 2 z)) else cc
    { f with coeffs := c1, values := forceReal (c2v c1) f.isReal }

/-- One update step of `trigtech.populate`'s loop body after `refine` returned
`(values, giveUp=False)`: store the values, bump `vscale` by the global
maximum of `np.hypot` over them, and recompute the coefficients through the
opaque forward transform. -/
def populateStep (v2c : Mat → Mat) (hyp : ℚ → ℚ → ℚ) (f : Trig) (v : Mat) : Trig :=
  let vmax := maxQ ((v.map (fun row => maxQ (row.map (fun z => hyp z.re z.im)))))
  { f with values := v, vscale := max f.vscale vmax, coeffs := v2c v }

/-- The epilogue both exits of `trigtech.populate` run after breaking out of
the loop: `self.ishappy = ishappy` (the last locally computed flag) and
re-forcing of the real-flagged value columns. -/
def populateFinish (f : Trig) (h : Bool) : Trig :=
  { f with ishappy := h, values := forceReal f.values f.isReal }

/-- `trigtech.populate(refine)`.  The refinement object is modelled by the
list `steps` of value arrays it returns with `giveUp=False`, after which it
returns `giveUp=True` with the best-so-far values (which at that point are
already stored, so that final assignment is a no-op).  `last` carries the
most recently computed local `ishappy` flag; when `giveUp` arrives on the
very first iteration that local is unbound and Python raises `NameError`. -/
def populate (v2c c2v : Mat → Mat) (hyp : ℚ → ℚ → ℚ) (cabs : GQ → ℚ)
    (chop : List GQ → ℚ → ℕ) : List Mat → Option Bool → Trig → Except PyErr Trig
  | [], last, f =>
    match last with
    | none => .error .nameError
    | some h => .ok (populateFinish f h)
  | v :: rest, _, f =>
    let f2 := { populateStep v2c hyp f v with ishappy := (happyPair cabs chop f.eps (v2c v)).1 }
    if (happyPair cabs chop f.eps (v2c v)).1 then
      .ok (populateFinish (prolongT c2v f2 (happyPair cabs chop f.eps (v2c v)).2) true)
    else populate v2c c2v hyp cabs chop rest (some (happyPair cabs chop f.eps (v2c v)).1) f2

/-- Modelled from the spec: the missing `trig.refine` module ("nested" growth
strategy of the adaptive resolution engine, section 4.2).  Starting from an
initial sample count it doubles the count each iteration and gives up once
the next length would exceed `maxLength` (4096); the lengths actually
sampled are the doublings that stay within `maxLength`. -/
def refineLengths (n0 : ℕ) : List ℕ :=
  ((List.range 13).map (fun j => n0 * 2 ^ j)).filter (fun n => decide (n ≤ maxLength))

/-- `trigtech.simplify`: a no-op when the representation is not happy,
otherwise it rewrites values and coefficients through the external
`simplify_coeffs` primitive `simpC`. -/
def simplifyT (simpC : Mat → List Bool → ℚ → Mat × Mat) (f : Trig) : Trig :=
  if !f.ishappy then f
  else
    let p := simpC f.coeffs f.isReal f.eps
    { f with values := p.1, coeffs := p.2 }

/-- The tail of the callable-construction branch of `trigtech.__init__`
after `populate` returned: recompute the realness flags from a freshly
estimated vertical scale, then `simplify` (a no-op on an unhappy result). -/
def constructEpilogue (c2v : Mat → Mat) (hyp : ℚ → ℚ → ℚ) (cabs : GQ → ℚ)
    (simpC : Mat → List Bool → ℚ → Mat × Mat) (f : Trig) : Trig :=
  let vscl0 := vscaleCols c2v hyp cabs f.coeffs
  let vscl := vscl0.map (fun q => max f.vscale q)
  let f1 := { f with isReal := isRealCols f.eps vscl f.values }
  simplifyT simpC f1

/-- The `trigtech.__init__` branch for a callable `op`: run the adaptive
engine (`populate`) on the sampler's successive refinements, recompute the
realness flags, and `simplify` (section of the source after `self.populate`).
The `NaN/Inf` probe of `__check_callable` is vacuous over exact rationals;
the initial realness flags it sets are taken as the parameter `isReal0`.
The sampler `vals` gives the value array the callable produces on the
equispaced grid of a given length. -/
def constructFromCallable (v2c c2v : Mat → Mat) (hyp : ℚ → ℚ → ℚ) (cabs : GQ → ℚ)
    (chop : List GQ → ℚ → ℕ) (simpC : Mat → List Bool → ℚ → Mat × Mat)
    (isReal0 : List Bool) (vals : ℕ → Mat) (n0 : ℕ) : Except PyErr Trig :=
  let f0 : Trig :=
    { coeffs := [], values := [], ishappy := false, isReal := isReal0,
      eps := defEps, vscale := defEps, hscale := defEps }
  let steps := (refineLengths n0).map vals
  match populate v2c c2v hyp cabs chop steps none f0 with
  | .error e => .error e
  | .ok f => .ok (constructEpilogue c2v hyp cabs simpC f)

/-- `np.inner(trig1, trig2)` without the conditional real-forcing: prolong
both operands to the combined length `len(f) + len(g)` through the external
`prolong` primitive `pro` (which returns `(coeffs, values)`), apply the
quadrature weights `qw` of that length to the transposed f-values, and take
the matrix product against the CONJUGATED g-values:
`np.matmul(fvalues.T * w, np.conj(gvalues))`. -/
def innerRaw (pro : Mat → ℕ → List Bool → Mat × Mat) (qw : ℕ → List ℚ)
    (f g : Trig) : Mat :=
  let n := f.coeffs.length + g.coeffs.length
  let fv := (pro f.coeffs n f.isReal).2
  let gv := (pro g.coeffs n g.isReal).2
  let w := qw n
  let scaled := (transposeM fv).map (fun row => List.zipWith (fun a b => gscaleQ b a) row w)
  matmulG scaled (gv.map (List.map gconj))

/-- `np.inner(trig1, trig2)`: the raw weighted product, with the result
forced real (`np.real`) exactly when `np.all(trig1.isReal * trig2.isReal)`.
The final `.squeeze()` only reshapes and is not modelled. -/
def np_inner (pro : Mat → ℕ → List Bool → Mat × Mat) (qw : ℕ → List ℚ)
    (f g : Trig) : Mat :=
  let out := innerRaw pro qw f g
  if (List.zipWith (fun a b => a && b) f.isReal g.isReal).all id then
    out.map (List.map (fun z => (⟨z.re, 0⟩ : GQ)))
  else out

/-- The inner product as claim C7 words it: identical to `innerRaw` except
that the conjugate is taken on the f side. -/
def innerClaimed (pro : Mat → ℕ → List Bool → Mat × Mat) (qw : ℕ → List ℚ)
    (f g : Trig) : Mat :=
  let n := f.coeffs.length + g.coeffs.length
  let fv := (pro f.coeffs n f.isReal).2
  let gv := (pro g.coeffs n g.isReal).2
  let w := qw n
  let scaled := (transposeM (fv.map (List.map gconj))).map
    (fun row => List.zipWith (fun a b => gscaleQ b a) row w)
  matmulG scaled gv

/-- Vector addition over `ℚ` (zip-truncating; operands of equal length in
all uses below). -/
def vaddQ (xs ys : QVec) : QVec := List.zipWith (· + ·) xs ys

/-- Vector subtraction over `ℚ`. -/
def vsubQ (xs ys : QVec) : QVec := List.zipWith (· - ·) xs ys

/-- Scalar multiplication of a vector over `ℚ`. -/
def smulQ (c : ℚ) (xs : QVec) : QVec := xs.map (fun x => c * x)

/-- Dot product over `ℚ`. -/
def dotQ (xs ys : QVec) : ℚ := (List.zipWith (· * ·) xs ys).sum

/-- Matrix-vector product `M._mul_vector(c)` over `ℚ`. -/
def mulMV (M : QMat) (c : QVec) : QVec := M.map (fun row => dotQ row c)

/-- Width of a real matrix. -/
def widthQ (M : QMat) : ℕ := (M.headD []).length

/-- `M.transpose()` over `ℚ` (out-of-range entries read as `0`). -/
def transposeQ (M : QMat) : QMat :=
  (List.range (widthQ M)).map (fun j => M.map (fun r => r.getD j 0))

/-- The state argument handed to `DeflatedResidual`: either a function-like
wrapper carrying the sampled vector in its `.u` attribute, or the raw sampled
vector itself (which has no `.u` attribute). -/
inductive PyState where
  | raw (v : QVec)
  | wrapped (v : QVec)
deriving DecidableEq, Repr

/-- Attribute access `u.u`: succeeds on the wrapper, raises `AttributeError`
on a raw state. -/
def PyState.getU : PyState → Except PyErr QVec
  | .raw _ => .error .attributeError
  | .wrapped v => .ok v

/-- The underlying vector of either kind of state (used where the source
falls back from `u.u` to `u` itself). -/
def PyState.vec : PyState → QVec
  | .raw v => v
  | .wrapped v => v

/-- `DeflatedResidual.__deflation(u)`:
`eta = prod_k (shift + 1 / h1norm(u - u_k) ** power)`, `1` when the known
solution set is empty.  `h1` is the external `h1norm`. -/
def deflation (h1 : QVec → ℚ) (shift : ℚ) (power : ℕ) (ks : List QVec) (v : QVec) : ℚ :=
  ks.foldl (fun eta k => eta * (shift + 1 / h1 (vsubQ v k) ^ power)) 1

/-- The loop of `DeflatedResidual.__compute_der_deflation`: accumulates the
deflation factor `eta` and the defining function of the derivative
functional, `function += diff / (defl * diff_norm ** (2 + power))`. -/
def derDeflationLoop (h1 : QVec → ℚ) (shift : ℚ) (power : ℕ) (v : QVec) :
    List QVec → ℚ × QVec → ℚ × QVec
  | [], acc => acc
  | k :: rest, (eta, fvec) =>
    let diff := vsubQ v k
    let dn := h1 diff
    let defl := shift + 1 / dn ^ power
    derDeflationLoop h1 shift power v rest
      (eta * defl, vaddQ fvec (smulQ (1 / (defl * dn ^ (2 + power))) diff))

/-- `DeflatedResidual.__compute_der_deflation(u)`: returns `(eta, None)` for
an empty known-solution set; otherwise runs the accumulation loop over the
known solutions, scales the accumulated function by `-power * eta`, resamples
it (external `prolongV`) if its length disagrees with `u`'s, and wraps it in
the external `Functional` constructor `fOf`. -/
def computeDerDeflation (h1 : QVec → ℚ) (fOf : QVec → QVec → ℚ)
    (prolongV : QVec → ℕ → QVec) (shift : ℚ) (power : ℕ) (ks : List QVec)
    (v : QVec) : ℚ × Option (QVec → ℚ) :=
  match ks with
  | [] => (1, none)
  | _ =>
    let p := derDeflationLoop h1 shift power v ks (1, v.map (fun _ => 0))
    let fvec := smulQ (-(power : ℚ) * p.1) p.2
    let fvec1 := if fvec.length ≠ v.length then prolongV fvec v.length else fvec
    (p.1, some (fOf fvec1))

/-- The `DeflatedResidual` operator: the linearized matrix `M`, the lazily
cached transpose `MT`, the (possibly `eta`-rescaled) right-hand side `b`, the
known-solution set and deflation parameters, and the deflation factor and
derivative functional fixed at construction. -/
structure DR where
  M : QMat
  MT : Option QMat
  b : QVec
  ks : List QVec
  shift : ℚ
  power : ℕ
  eta : ℚ
  functional : Option (QVec → ℚ)

/-- `DeflatedResidual.__init__` given the pieces the external collocation
object supplies (`M` from `colloc.matrix()`, `b0` from `colloc.rhs()`).
The deflation data is computed from `u.u` when the attribute exists and from
`u` itself after catching the `AttributeError` otherwise; if solutions are
known, `b` is rescaled by `eta` once.  (The auxiliary `P`, `S`, `proj`
members and the `u.prolong` shape fixup play no part in the claims and are
not modelled.) -/
def DR.init (h1 : QVec → ℚ) (fOf : QVec → QVec → ℚ) (prolongV : QVec → ℕ → QVec)
    (M : QMat) (b0 : QVec) (ks : List QVec) (shift : ℚ) (power : ℕ)
    (u : PyState) : DR :=
  let v := match u.getU with
    | .ok w => w
    | .error _ => u.vec
  let p := computeDerDeflation h1 fOf prolongV shift power ks v
  { M := M, MT := none,
    b := if ks ≠ [] then smulQ p.1 b0 else b0,
    ks := ks, shift := shift, power := power, eta := p.1, functional := p.2 }

/-- `DeflatedResidual._matvec(c)`: plain `M @ c` when no solutions are known,
otherwise `eta * (M @ c) + b * functional(c)`. -/
def DR.matvec (op : DR) (c : QVec) : QVec :=
  match op.ks with
  | [] => mulMV op.M c
  | _ =>
    let deta := (op.functional.map (fun φ => φ c)).getD 0
    vaddQ (smulQ op.eta (mulMV op.M c)) (smulQ deta op.b)

/-- `DeflatedResidual._rmatvec(x)`: the transpose is computed lazily and
cached in `MT` first; with no known solutions the result is `MT @ x`, with
known solutions the method reaches `assert False, 'FIXME!'` and raises
`AssertionError`.  Returns the result together with the updated operator. -/
def DR.rmatvec (op : DR) (x : QVec) : Except PyErr QVec × DR :=
  let MT := op.MT.getD (transposeQ op.M)
  let op1 := { op with MT := some MT }
  match op.ks with
  | [] => (.ok (mulMV MT x), op1)
  | _ => (.error (.assertionError ("FIXME!")), op1)

/-- `DeflatedResidual.rhs(u)`: recompute the residual through the external
collocation (`crhs`), return it unscaled when no solutions are known;
otherwise evaluate the deflation factor at `u.u` — an unconditional attribute
access that raises `AttributeError` on a raw state — and scale. -/
def DR.rhs (crhs : PyState → QVec) (h1 : QVec → ℚ) (op : DR) (u : PyState) :
    Except PyErr QVec :=
  let res := crhs u
  match op.ks with
  | [] => .ok res
  | _ =>
    match u.getU with
    | .error e => .error e
    | .ok w => .ok (smulQ (deflation h1 op.shift op.power op.ks w) res)

/-- The `DeflatedResidualPrecond` operator: plain preconditioner `Pf`, its
lazily cached transpose, the right-hand side, the known-solution count, the
deflation factor and functional, and the precomputed Sherman-Morrison
denominator `eta ** 2 + functional(b)`. -/
structure DRP where
  Pf : QMat
  PfT : Option QMat
  b : QVec
  ksn : ℕ
  eta : ℚ
  functional : Option (QVec → ℚ)
  denom : Option ℚ

/-- `DeflatedResidualPrecond.__init__`: stores its pieces and precomputes the
denominator when a functional is supplied. -/
def DRP.init (Pf : QMat) (b : QVec) (ksn : ℕ) (eta : ℚ)
    (functional : Option (QVec → ℚ)) : DRP :=
  { Pf := Pf, PfT := none, b := b, ksn := ksn, eta := eta,
    functional := functional,
    denom := functional.map (fun φ => eta ^ 2 + φ b) }

/-- `DeflatedResidualPrecond._matvec(x)`: plain `Pf @ x` when the
known-solution count is zero, otherwise the Sherman-Morrison corrected
action `(term1 - b * functional(term1) / denom) / eta`. -/
def DRP.matvec (op : DRP) (x : QVec) : QVec :=
  if op.ksn = 0 then mulMV op.Pf x
  else
    let term1 := mulMV op.Pf x
    let φv := (op.functional.map (fun φ => φ term1)).getD 0
    smulQ (1 / op.eta) (vsubQ term1 (smulQ (φv / op.denom.getD 0) op.b))

/-- `DeflatedResidualPrecond._rmatvec(x)`: the transpose of `Pf` is computed
lazily and cached; with a zero known-solution count the result is `PfT @ x`,
otherwise the method reaches `assert False, 'FIXME'` and raises
`AssertionError`. -/
def DRP.rmatvec (op : DRP) (x : QVec) : Except PyErr QVec × DRP :=
  let PfT := op.PfT.getD (transposeQ op.Pf)
  let op1 := { op with PfT := some PfT }
  if op.ksn = 0 then (.ok (mulMV PfT x), op1)
  else (.error (.assertionError ("FIXME")), op1)

/-- C1: for every coefficient vector `c`, the `matvec` of a
`DeflatedResidual` constructed with an empty known-solution set is exactly
`M @ c`, and with a non-empty known-solution set it is
`eta * (M @ c) + b * functional(c)` where `eta`, `b` (the `eta`-rescaled
right-hand side) and the deflation-derivative functional are the ones fixed
by the construction. -/
theorem dr_matvec_modes (h1 : QVec → ℚ) (fOf : QVec → QVec → ℚ)
    (prolongV : QVec → ℕ → QVec) (M : QMat) (b0 : QVec) (ks : List QVec)
    (shift : ℚ) (power : ℕ) (u : PyState) (c : QVec) (hks : ks ≠ []) :
    DR.matvec (DR.init h1 fOf prolongV M b0 [] shift power u) c = mulMV M c ∧
    ∃ φ, (DR.init h1 fOf prolongV M b0 ks shift power u).functional = some φ ∧
      DR.matvec (DR.init h1 fOf prolongV M b0 ks shift power u) c =
        vaddQ (smulQ (DR.init h1 fOf prolongV M b0 ks shift power u).eta (mulMV M c))
          (smulQ (φ c) (DR.init h1 fOf prolongV M b0 ks shift power u).b) := by
  refine ⟨rfl, ?_⟩
  cases ks with
  | nil => exact absurd rfl hks
  | cons k rest => exact ⟨_, rfl, rfl⟩

/-- Witness for C1 at concrete data (one known solution `[5]`, raw state). -/
theorem dr_matvec_modes_w :
    DR.matvec (DR.init (fun v => v.sum) dotQ (fun f _ => f) [[1]] [2] [] 1 2
      (.raw [1])) [3] = mulMV [[1]] [3] ∧
    ∃ φ, (DR.init (fun v => v.sum) dotQ (fun f _ => f) [[1]] [2] [[5]] 1 2
        (.raw [1])).functional = some φ ∧
      DR.matvec (DR.init (fun v => v.sum) dotQ (fun f _ => f) [[1]] [2] [[5]] 1 2
          (.raw [1])) [3] =
        vaddQ (smulQ (DR.init (fun v => v.sum) dotQ (fun f _ => f) [[1]] [2] [[5]] 1 2
            (.raw [1])).eta (mulMV [[1]] [3]))
          (smulQ (φ [3]) (DR.init (fun v => v.sum) dotQ (fun f _ => f) [[1]] [2] [[5]] 1 2
            (.raw [1])).b) :=
  dr_matvec_modes (fun v => v.sum) dotQ (fun f _ => f) [[1]] [2] [[5]] 1 2
    (.raw [1]) [3] (by decide)

/-- C8 counterexample: at concrete data the deflated adjoint actions of both
operators fail with `AssertionError` (from `assert False, 'FIXME'`), which is
a different exception than the `NotImplementedError` the claim names. -/
theorem dr_rmatvec_error_type_ce :
    (DR.rmatvec (DR.init (fun v => v.sum) dotQ (fun f _ => f) [[1]] [1] [[0]] 1 2
        (.raw [1])) [1]).1 = .error (.assertionError ("FIXME!")) ∧
    PyErr.assertionError ("FIXME!") ≠ PyErr.notImplementedError ∧
    (DRP.rmatvec (DRP.init [[1]] [1] 1 1 (some (fun v => v.sum))) [1]).1
      = .error (.assertionError ("FIXME")) ∧
    PyErr.assertionError ("FIXME") ≠ PyErr.notImplementedError :=
  ⟨rfl, by decide, rfl, by decide⟩

/-- C8 (amended): the deflated adjoint actions (`rmatvec`) of
`DeflatedResidual` and `DeflatedResidualPrecond` fail with `AssertionError`
(`assert False, 'FIXME!'` resp. `'FIXME'`) rather than returning a numeric
result; with an empty known-solution set the adjoint returns `M^T @ x`
(resp. `Pf^T @ x`) with the transpose computed lazily, cached in the
operator, and reused when already present. -/
theorem dr_rmatvec_modes (h1 : QVec → ℚ) (fOf : QVec → QVec → ℚ)
    (prolongV : QVec → ℕ → QVec) (M : QMat) (b0 : QVec) (ks : List QVec)
    (shift : ℚ) (power : ℕ) (u : PyState) (x : QVec) (Pf : QMat) (b : QVec)
    (ksn : ℕ) (eta : ℚ) (fl : Option (QVec → ℚ)) (T : QMat) (op : DR)
    (hks : ks ≠ []) (hksn : ksn ≠ 0) :
    (DR.rmatvec (DR.init h1 fOf prolongV M b0 ks shift power u) x).1
        = .error (.assertionError ("FIXME!")) ∧
    (DR.rmatvec (DR.init h1 fOf prolongV M b0 [] shift power u) x).1
        = .ok (mulMV (transposeQ M) x) ∧
    (DR.rmatvec (DR.init h1 fOf prolongV M b0 [] shift power u) x).2.MT
        = some (transposeQ M) ∧
    (op.ks = [] → op.MT = some T → DR.rmatvec op x = (.ok (mulMV T x), op)) ∧
    (DRP.rmatvec (DRP.init Pf b ksn eta fl) x).1 = .error (.assertionError ("FIXME")) ∧
    (DRP.rmatvec (DRP.init Pf b 0 eta fl) x).1 = .ok (mulMV (transposeQ Pf) x) ∧
    (DRP.rmatvec (DRP.init Pf b 0 eta fl) x).2.PfT = some (transposeQ Pf) := by
  refine ⟨?_, rfl, rfl, ?_, ?_, rfl, rfl⟩
  · cases ks with
    | nil => exact absurd rfl hks
    | cons k rest => rfl
  · intro hops hMT
    cases op
    simp only at hops hMT
    subst hops hMT
    simp [DR.rmatvec]
  · simp [DRP.rmatvec, DRP.init, hksn]

/-- A concrete operator with an already-cached transpose, used by the C8
witness. -/
def drCachedSample : DR :=
  { M := [[1]], MT := some [[7]], b := [1], ks := [], shift := 1, power := 2,
    eta := 1, functional := none }

/-- Witness for C8 at concrete data. -/
theorem dr_rmatvec_modes_w :
    (DR.rmatvec (DR.init (fun v => v.sum) dotQ (fun f _ => f) [[1]] [1] [[0]] 1 2
        (.raw [1])) [1]).1 = .error (.assertionError ("FIXME!")) ∧
    (DR.rmatvec (DR.init (fun v => v.sum) dotQ (fun f _ => f) [[1]] [1] [] 1 2
        (.raw [1])) [1]).1 = .ok (mulMV (transposeQ [[1]]) [1]) ∧
    (DR.rmatvec (DR.init (fun v => v.sum) dotQ (fun f _ => f) [[1]] [1] [] 1 2
        (.raw [1])) [1]).2.MT = some (transposeQ [[1]]) ∧
    (drCachedSample.ks = [] → drCachedSample.MT = some [[7]] →
      DR.rmatvec drCachedSample [1] = (.ok (mulMV [[7]] [1]), drCachedSample)) ∧
    (DRP.rmatvec (DRP.init [[1]] [1] 3 1 none) [1]).1 = .error (.assertionError ("FIXME")) ∧
    (DRP.rmatvec (DRP.init [[1]] [1] 0 1 none) [1]).1 = .ok (mulMV (transposeQ [[1]]) [1]) ∧
    (DRP.rmatvec (DRP.init [[1]] [1] 0 1 none) [1]).2.PfT = some (transposeQ [[1]]) :=
  dr_rmatvec_modes (fun v => v.sum) dotQ (fun f _ => f) [[1]] [1] [[0]] 1 2
    (.raw [1]) [1] [[1]] [1] 3 1 none [[7]] drCachedSample (by decide) (by decide)

/-- C10: with a non-empty known-solution set, `DeflatedResidual.rhs` reads
`u.u` unconditionally, so a raw state raises `AttributeError`; with an empty
known-solution set `rhs` returns the collocation residual for any state and
never touches `u.u`; and construction itself accepts a raw state through its
try/except fallback (it builds the same operator as for the wrapped state). -/
theorem dr_rhs_raw_state (crhs : PyState → QVec) (h1 : QVec → ℚ)
    (fOf : QVec → QVec → ℚ) (prolongV : QVec → ℕ → QVec) (M : QMat) (b0 : QVec)
    (ks : List QVec) (shift : ℚ) (power : ℕ) (u : PyState) (w v : QVec)
    (s : PyState) (hks : ks ≠ []) :
    DR.rhs crhs h1 (DR.init h1 fOf prolongV M b0 ks shift power u) (.raw w)
        = .error .attributeError ∧
    DR.rhs crhs h1 (DR.init h1 fOf prolongV M b0 [] shift power u) s
        = .ok (crhs s) ∧
    DR.init h1 fOf prolongV M b0 ks shift power (.raw v)
        = DR.init h1 fOf prolongV M b0 ks shift power (.wrapped v) := by
  refine ⟨?_, rfl, rfl⟩
  cases ks with
  | nil => exact absurd rfl hks
  | cons k rest => rfl

/-- Witness for C10 at concrete data. -/
theorem dr_rhs_raw_state_w :
    DR.rhs (fun s => s.vec) (fun v => v.sum)
        (DR.init (fun v => v.sum) dotQ (fun f _ => f) [[1]] [2] [[5]] 1 2
          (.raw [1])) (.raw [4]) = .error .attributeError ∧
    DR.rhs (fun s => s.vec) (fun v => v.sum)
        (DR.init (fun v => v.sum) dotQ (fun f _ => f) [[1]] [2] [] 1 2
          (.raw [1])) (.raw [4]) = .ok ((PyState.raw [4]).vec) ∧
    DR.init (fun v => v.sum) dotQ (fun f _ => f) [[1]] [2] [[5]] 1 2 (.raw [9])
        = DR.init (fun v => v.sum) dotQ (fun f _ => f) [[1]] [2] [[5]] 1 2
          (.wrapped [9]) :=
  dr_rhs_raw_state (fun s => s.vec) (fun v => v.sum) dotQ (fun f _ => f)
    [[1]] [2] [[5]] 1 2 (.raw [1]) [4] [9] (.raw [4]) (by decide)

/-- Concrete instantiation of complex `np.abs` used at concrete inputs below;
it agrees with the complex modulus on every scalar whose real or imaginary
part is zero, which covers all entries of those inputs. -/
def cabsAx (z : GQ) : ℚ := |z.re| + |z.im|

/-- Concrete instantiation of `np.hypot` used at concrete inputs below;
it agrees with `hypot` whenever one argument is zero. -/
def hypAx (a b : ℚ) : ℚ := |a| + |b|

/-- Concrete stand-in for `np.pi` in evaluations (only its nonzeroness can
matter to the embedded formulas evaluated below). -/
def pivSample : GQ := ⟨3, 0⟩

/-- The identity on matrices: a concrete instantiation of the opaque
transform pair (exact for length-1 arrays, where the discrete Fourier
transform is the identity). -/
def idMat (m : Mat) : Mat := m

/-- A trigtech of odd length 3 whose zero-frequency (mean) coefficient is 1
(nonzero) while the coefficient at the mis-probed index 2 is zero. -/
def meanOneTrig : Trig :=
  { coeffs := [[0], [1], [0]], values := [[1], [1], [1]], ishappy := true,
    isReal := [true], eps := defEps, vscale := defEps, hscale := defEps }

/-- A trigtech of odd length 3 with zero mean but a nonzero coefficient at
index 2 (the wavenumber-one mode probed by the check). -/
def zeroMeanTrig : Trig :=
  { coeffs := [[1], [0], [⟨-1, 0⟩]], values := [[1], [1], [1]], ishappy := true,
    isReal := [true], eps := defEps, vscale := defEps, hscale := defEps }

/-- The error message of `np.cumsum`'s zero-mean check. -/
def meanMsg : String :=
  "Indefinite integrals are only possible for trigtech objects with zero mean!"

/-- Whether an embedded trigtech computation returned without raising. -/
def isOkB : Except PyErr (Mat × Trig) → Bool
  | .ok _ => true
  | .error _ => false

/-- The zero scalar written as an explicit pair. -/
theorem gq_zero_def : (0 : GQ) = ⟨0, 0⟩ := rfl

/-- Real part of the zero scalar. -/
theorem gq_re_zero : (0 : GQ).re = 0 := rfl

/-- Imaginary part of the zero scalar. -/
theorem gq_im_zero : (0 : GQ).im = 0 := rfl

/-- C2: the zero-mean precondition of the antiderivative is enforced at the
wrong coefficient row and through a boolean-to-float comparison: a length-3
representation with mean coefficient 1 (claimed to raise `MeanNotZeroError`)
integrates without raising, while a zero-mean representation with a nonzero
wavenumber-one coefficient (claimed not to raise) raises the error. -/
theorem cumsum_mean_check_eval (c2v : Mat → Mat) (hyp : ℚ → ℚ → ℚ) :
    isOkB (np_cumsum c2v hyp cabsAx pivSample meanOneTrig 1) = true ∧
    np_cumsum c2v hyp cabsAx pivSample zeroMeanTrig 1
      = .error (.runtimeError meanMsg) := by
  constructor
  · simp only [np_cumsum, meanOneTrig]
    norm_num [cumsumCheckIndex, cumsumRaises, cabsAx, boolToRat, defEps, isOkB,
      gq_re_zero, gq_im_zero]
  · simp only [np_cumsum, zeroMeanTrig]
    norm_num [cumsumCheckIndex, cumsumRaises, cabsAx, boolToRat, defEps, meanMsg]

/-- The exact trigtech representation of `sin(pi*x)` on three points:
coefficients `i/2, 0, -i/2` for wavenumbers `-1, 0, 1`; its mean is zero. -/
def sinTrig : Trig :=
  { coeffs := [[⟨0, 1/2⟩], [0], [⟨0, -1/2⟩]], values := [], ishappy := true,
    isReal := [true], eps := defEps, vscale := defEps, hscale := defEps }

/-- C3: the integrate-then-differentiate round trip is unavailable for the
zero-mean representation of `sin(pi*x)`: `np.cumsum` raises its
(mis-indexed) mean error on it, because the probed row holds the
wavenumber-one coefficient `-i/2` rather than the mean. -/
theorem cumsum_roundtrip_raises_eval (c2v : Mat → Mat) (hyp : ℚ → ℚ → ℚ) :
    np_cumsum c2v hyp cabsAx pivSample sinTrig 1
      = .error (.runtimeError meanMsg) := by
  simp only [np_cumsum, sinTrig]
  norm_num [cumsumCheckIndex, cumsumRaises, cabsAx, boolToRat, defEps, meanMsg]

/-- C9: whenever `np.cumsum(f)` completes (the probed row exists and the
mean check does not fire), the first component of its result — the final
state of the argument's own coefficient array, mutated in place through the
alias `c = f.coeffs` — has the row at index `n//2` (even `n`) resp.
`(n+1)//2` (odd `n`) set to zero, and for even `n` the first row
additionally halved, while a freshly built representation is returned
alongside. -/
theorem cumsum_mutates_input (c2v : Mat → Mat) (hyp : ℚ → ℚ → ℚ)
    (cabs : GQ → ℚ) (piv : GQ) (f : Trig) (mOrd : ℕ) (row : List GQ)
    (hrow : f.coeffs[cumsumCheckIndex f.coeffs.length]? = some row)
    (hchk : cumsumRaises cabs f row = false) :
    ∃ t, np_cumsum c2v hyp cabs piv f mOrd =
      .ok ((if f.coeffs.length % 2 = 0 then
          updRow (updRow f.coeffs (f.coeffs.length / 2) (List.map (fun _ => 0))) 0
            (List.map (fun z => gscaleQ (1 / 2) z))
        else
          updRow f.coeffs ((f.coeffs.length + 1) / 2) (List.map (fun _ => 0))), t) := by
  simp only [np_cumsum, cumsumMutatedCoeffs, hrow, hchk, Bool.false_eq_true, if_false]
  exact ⟨_, rfl⟩

/-- An even-length (4) trigtech with nonzero rows, for the C9 witness. -/
def evenTrig : Trig :=
  { coeffs := [[⟨2, 0⟩], [⟨3, 0⟩], [⟨4, 0⟩], [0]], values := [], ishappy := true,
    isReal := [true], eps := defEps, vscale := defEps, hscale := defEps }

/-- Witness for C9: on the even-length input the call completes and the
input's coefficient array comes back with row 2 zeroed and row 0 halved. -/
theorem cumsum_mutates_input_w :
    ∃ t, np_cumsum idMat hypAx cabsAx pivSample evenTrig 1 =
      .ok ((if evenTrig.coeffs.length % 2 = 0 then
          updRow (updRow evenTrig.coeffs (evenTrig.coeffs.length / 2)
              (List.map (fun _ => 0))) 0
            (List.map (fun z => gscaleQ (1 / 2) z))
        else
          updRow evenTrig.coeffs ((evenTrig.coeffs.length + 1) / 2)
            (List.map (fun _ => 0))), t) :=
  cumsum_mutates_input idMat hypAx cabsAx pivSample evenTrig 1 [0]
    (by rfl)
    (by norm_num [cumsumRaises, cabsAx, boolToRat, defEps, gq_re_zero, gq_im_zero,
      evenTrig])

/-- A length-1 trigtech that is not happy (as the adaptive path can
produce), for the C6 counterexample. -/
def unhappyTrig : Trig :=
  { coeffs := [[1]], values := [[1]], ishappy := false, isReal := [false],
    eps := defEps, vscale := defEps, hscale := defEps }

/-- C6 counterexample: differentiating a representation that is not happy
yields a representation that IS marked happy (the constructor from explicit
coefficients overwrites the `ishappy` keyword with `True`), so the returned
representation is not "not marked happy" as claimed.  (For length 1 the
identity is the exact inverse transform, so `idMat` is faithful here.) -/
theorem diff_marked_happy_ce :
    ¬ ((np_diff idMat hypAx cabsAx pivSample unhappyTrig 1).ishappy = false) := by
  simp [np_diff, mkTrigFromCoeffs]

/-- C6 (amended): `np.diff` multiplies each Fourier coefficient by
`(1j * pi * k) ** order`, with `k` the wavenumber `j - (n-1)/2` of row `j`
for odd `n` and `j - n/2` for even `n` (so `k` ranges over
`-(n-1)/2 .. (n-1)/2` resp. `-n/2 .. n/2-1`), and the returned
representation is marked happy (not unhappy as claimed). -/
theorem diff_coeff_formula (c2v : Mat → Mat) (hyp : ℚ → ℚ → ℚ) (cabs : GQ → ℚ)
    (piv : GQ) (f : Trig) (order : ℕ) (j : ℕ) (hj : j < f.coeffs.length) :
    (np_diff c2v hyp cabs piv f order).coeffs[j]? =
      some ((f.coeffs.getD j []).map (fun z =>
        gmul z (gpow (gmul (gmul gI piv) (intC
          (if f.coeffs.length % 2 = 1 then (j : ℤ) - ((f.coeffs.length : ℤ) - 1) / 2
           else (j : ℤ) - (f.coeffs.length : ℤ) / 2))) order))) ∧
    (np_diff c2v hyp cabs piv f order).ishappy = true := by
  constructor
  · have hw : (waveNumbers f.coeffs.length)[j]? =
        some (if f.coeffs.length % 2 = 1 then (j : ℤ) - ((f.coeffs.length : ℤ) - 1) / 2
          else (j : ℤ) - (f.coeffs.length : ℤ) / 2) := by
      by_cases hodd : f.coeffs.length % 2 = 1
      · rw [waveNumbers, if_pos hodd, if_pos hodd, List.getElem?_map,
          List.getElem?_range hj, Option.map_some']
        rfl
      · rw [waveNumbers, if_neg hodd, if_neg hodd, List.getElem?_map,
          List.getElem?_range hj, Option.map_some']
        rfl
    show (List.zipWith _ (waveNumbers f.coeffs.length) f.coeffs)[j]? = _
    rw [List.getElem?_zipWith, hw, List.getElem?_eq_getElem hj,
      List.getD_eq_getElem f.coeffs [] hj]
  · rfl

/-- Witness for C6: differentiating the length-3 representation of
`sin(pi*x)`-type data; row 0 has wavenumber `-1`. -/
theorem diff_coeff_formula_w :
    (np_diff idMat hypAx cabsAx pivSample sinTrig 1).coeffs[0]? =
      some ((sinTrig.coeffs.getD 0 []).map (fun z =>
        gmul z (gpow (gmul (gmul gI pivSample) (intC
          (if sinTrig.coeffs.length % 2 = 1 then (0 : ℤ) - ((sinTrig.coeffs.length : ℤ) - 1) / 2
           else (0 : ℤ) - (sinTrig.coeffs.length : ℤ) / 2))) 1))) ∧
    (np_diff idMat hypAx cabsAx pivSample sinTrig 1).ishappy = true :=
  diff_coeff_formula idMat hypAx cabsAx pivSample sinTrig 1 0 (by decide)

/-- A concrete instantiation of the external chop primitive that inspects
its input: cutoff 0 when the leading entry is zero, 3 otherwise.  It
distinguishes the folded representation from the raw coefficient column. -/
def chopHeadZero (v : List GQ) (_ : ℚ) : ℕ := if (v.headD 0).re == 0 then 0 else 3

/-- C4 counterexample: on the single-column coefficient array
`[1, 0, 0]` (length 3) with the `chopHeadZero` primitive, the source's
happiness check chops the raw column (head `1`, cutoff 3, unhappy, final
cutoff 3), while the claimed algorithm chops the folded representation
(`[0, 1, 1]`, head `0`, cutoff 0, happy, final cutoff 1): the two disagree,
so the chop primitive is not applied to the folded representation. -/
theorem happy_folded_ce :
    happyPair cabsAx chopHeadZero defEps [[1], [0], [0]] = (false, 3) ∧
    happyPairFolded cabsAx chopHeadZero defEps [[1], [0], [0]] = (true, 1) ∧
    happyPair cabsAx chopHeadZero defEps [[1], [0], [0]] ≠
      happyPairFolded cabsAx chopHeadZero defEps [[1], [0], [0]] := by
  have h1 : happyPair cabsAx chopHeadZero defEps [[1], [0], [0]] = (false, 3) := rfl
  have h2 : happyPairFolded cabsAx chopHeadZero defEps [[1], [0], [0]] = (true, 1) := by
    norm_num [happyPairFolded, foldedCol, cabsAx, chopHeadZero, happyLoop, colOf,
      widthOf, ratC, gq_re_zero, gq_im_zero, gq_zero_def, GQ.mk.injEq]
  refine ⟨h1, h2, ?_⟩
  rw [h1, h2]
  decide

/-- The happiness flags produced by the column loop are all true exactly
when every column's chop cutoff is strictly below the stored length. -/
theorem happyLoop_all (chop : List GQ → ℚ → ℕ) (n : ℕ) (tol : ℚ)
    (L : List (List GQ)) :
    ((happyLoop chop n tol L).1.all id = true) ↔ ∀ c ∈ L, chop c tol < n := by
  induction L with
  | nil => simp [happyLoop]
  | cons c rest ih =>
    simp only [happyLoop]
    by_cases h : chop c tol < n
    · simpa [h] using ih
    · simp [h]

/-- C4 (amended): `trigtech.happy` computes the summed-reverse folded
representation but applies the external envelope-chopping primitive to each
column of the ORIGINAL coefficient array; the check reports happiness
exactly when, for every column, the cutoff the primitive returns on that
raw column is strictly less than the column's current length. -/
theorem happy_chop_raw_iff (cabs : GQ → ℚ) (chop : List GQ → ℚ → ℕ)
    (eps : ℚ) (coeffs : Mat) :
    (happyPair cabs chop eps coeffs).1 = true ↔
      ∀ k < widthOf coeffs, chop (colOf coeffs k) eps < coeffs.length := by
  show ((happyLoop chop coeffs.length eps
      ((List.range (widthOf coeffs)).map (fun k => colOf coeffs k))).1.all id) = true ↔ _
  rw [happyLoop_all]
  constructor
  · intro h k hk
    exact h _ (List.mem_map_of_mem _ (List.mem_range.mpr hk))
  · intro h c hc
    obtain ⟨k, hk, rfl⟩ := List.mem_map.mp hc
    exact h k (List.mem_range.mp hk)

/-- When the refinement stream ends in give-up after at least one sampling
and every sampled level fails the happiness check, `populate` terminates
normally with an unhappy representation (the give-up break reuses the last
loop iteration's local `ishappy`, which is `False`). -/
theorem populate_unhappy_aux (v2c c2v : Mat → Mat) (hyp : ℚ → ℚ → ℚ)
    (cabs : GQ → ℚ) (chop : List GQ → ℚ → ℕ) (steps : List Mat) :
    ∀ (f : Trig) (last : Option Bool), steps ≠ [] →
    (∀ v ∈ steps, (happyPair cabs chop f.eps (v2c v)).1 = false) →
    ∃ t, populate v2c c2v hyp cabs chop steps last f = .ok t ∧ t.ishappy = false := by
  induction steps with
  | nil => intro f last hne _; exact absurd rfl hne
  | cons v rest ih =>
    intro f last _ hun
    have hv : (happyPair cabs chop f.eps (v2c v)).1 = false :=
      hun v (List.mem_cons_self v rest)
    cases rest with
    | nil =>
      refine ⟨populateFinish { populateStep v2c hyp f v with
          ishappy := (happyPair cabs chop f.eps (v2c v)).1 } false, ?_, rfl⟩
      simp only [populate, hv, Bool.false_eq_true, if_false]
    | cons w ws =>
      have hres := ih { populateStep v2c hyp f v with
          ishappy := (happyPair cabs chop f.eps (v2c v)).1 }
        (some (happyPair cabs chop f.eps (v2c v)).1) (by simp)
        (fun u hu => hun u (List.mem_cons_of_mem v hu))
      obtain ⟨t, hpop, hih⟩ := hres
      refine ⟨t, ?_, hih⟩
      simp only [populate, hv, Bool.false_eq_true, if_false]
      exact hpop

/-- C5: when the adaptive resolution engine runs out of refinement lengths
(doubling from `n0 <= maxLength = 4096`) without any sampled level passing
the happiness check, construction from a callable completes normally and
returns a representation flagged unhappy, rather than raising. -/
theorem construct_unresolved_unhappy (v2c c2v : Mat → Mat) (hyp : ℚ → ℚ → ℚ)
    (cabs : GQ → ℚ) (chop : List GQ → ℚ → ℕ)
    (simpC : Mat → List Bool → ℚ → Mat × Mat) (isReal0 : List Bool)
    (vals : ℕ → Mat) (n0 : ℕ) (hm : n0 ≤ maxLength)
    (hun : ∀ v ∈ (refineLengths n0).map vals,
      (happyPair cabs chop defEps (v2c v)).1 = false) :
    ∃ t, constructFromCallable v2c c2v hyp cabs chop simpC isReal0 vals n0 = .ok t ∧
      t.ishappy = false := by
  have hmem : n0 * 2 ^ 0 ∈ refineLengths n0 := by
    rw [refineLengths]
    refine List.mem_filter.mpr ⟨List.mem_map_of_mem _ ?_, ?_⟩
    · exact List.mem_range.mpr (by norm_num)
    · simpa using hm
  have hne : (refineLengths n0).map vals ≠ [] := by
    intro h
    exact absurd (List.map_eq_nil_iff.mp h) (List.ne_nil_of_mem hmem)
  obtain ⟨t, hpop, hih⟩ := populate_unhappy_aux v2c c2v hyp cabs chop
    ((refineLengths n0).map vals)
    { coeffs := [], values := [], ishappy := false, isReal := isReal0,
      eps := defEps, vscale := defEps, hscale := defEps } none hne hun
  refine ⟨constructEpilogue c2v hyp cabs simpC t, ?_, ?_⟩
  · rw [constructFromCallable, hpop]
  · simp [constructEpilogue, simplifyT, hih]

/-- A concrete chop primitive that never chops (cutoff equals the length),
so no level is ever happy. -/
def chopLen (v : List GQ) (_ : ℚ) : ℕ := v.length

/-- A concrete `simplify_coeffs` instantiation that keeps the data. -/
def simpId (c : Mat) (_ : List Bool) (_ : ℚ) : Mat × Mat := (c, c)

/-- Witness for C5: with initial length 2500 the engine gives up after one
doubling attempt; the construction completes and is flagged unhappy. -/
theorem construct_unresolved_unhappy_w :
    ∃ t, constructFromCallable idMat idMat hypAx cabsAx chopLen simpId [false]
        (fun _ => [[1]]) 2500 = .ok t ∧ t.ishappy = false :=
  construct_unresolved_unhappy idMat idMat hypAx cabsAx chopLen simpId [false]
    (fun _ => [[1]]) 2500 (by decide) (by decide)

/-- Reading a mapped list inside its range agrees with mapping the read. -/
theorem getD_map_of_lt {α β : Type} (g : α → β) (X : List α) (a : ℕ) (d : α)
    (d2 : β) (h : a < X.length) : (X.map g).getD a d2 = g (X.getD a d) := by
  rw [List.getD_eq_getElem _ _ (by simpa using h), List.getElem_map,
    List.getD_eq_getElem _ _ h]

/-- A column read commutes with the row read. -/
theorem getD_colOf (A : Mat) (k j : ℕ) (h : j < A.length) :
    (colOf A k).getD j 0 = (A.getD j []).getD k 0 := by
  rw [colOf, getD_map_of_lt _ _ _ [] _ h]

/-- A column of a conjugated matrix is the conjugated column (the default
entry `0` is fixed by conjugation). -/
theorem getD_map_gconj (row : List GQ) (b : ℕ) :
    (row.map gconj).getD b 0 = gconj (row.getD b 0) := by
  induction row generalizing b with
  | nil => cases b <;> simp [gconj, gq_zero_def]
  | cons x xs ih =>
    cases b with
    | zero => simp
    | succ m => rw [List.map_cons, List.getD_cons_succ, List.getD_cons_succ]; exact ih m

/-- Conjugation does not change the width of a matrix. -/
theorem widthOf_map_conj (gv : Mat) :
    widthOf (gv.map (List.map gconj)) = widthOf gv := by
  cases gv <;> simp [widthOf]

/-- The weighted dot product of two lists of a common length, written as a
sum over the index range. -/
theorem dotG_scaled_eq_sum (n : ℕ) :
    ∀ (xs : List GQ) (w : List ℚ) (ys : List GQ),
    xs.length = n → w.length = n → ys.length = n →
    dotG (List.zipWith (fun x y => gscaleQ y x) xs w) ys =
      gsum ((List.range n).map (fun j =>
        gmul (gscaleQ (w.getD j 0) (xs.getD j 0)) (ys.getD j 0))) := by
  induction n with
  | zero =>
    intro xs w ys hx _ hy
    rw [List.length_eq_zero.mp hx, List.length_eq_zero.mp hy]
    simp [dotG, gsum]
  | succ n ih =>
    intro xs w ys hx hw hy
    cases xs with
    | nil => simp at hx
    | cons x xt =>
      cases w with
      | nil => simp at hw
      | cons c wt =>
        cases ys with
        | nil => simp at hy
        | cons y yt =>
          have hx1 : xt.length = n := by simpa using hx
          have hw1 : wt.length = n := by simpa using hw
          have hy1 : yt.length = n := by simpa using hy
          rw [List.range_succ_eq_map]
          simp only [List.zipWith_cons_cons, List.map_cons, List.map_map,
            dotG, List.getD_cons_zero, gsum, List.foldr_cons]
          congr 1
          have hrec := ih xt wt yt hx1 hw1 hy1
          simp only [dotG, gsum] at hrec
          have hmap : List.map ((fun j => gmul (gscaleQ ((c :: wt).getD j 0)
                ((x :: xt).getD j 0)) ((y :: yt).getD j 0)) ∘ Nat.succ) (List.range n)
              = List.map (fun j => gmul (gscaleQ (wt.getD j 0) (xt.getD j 0))
                (yt.getD j 0)) (List.range n) := by
            apply List.map_congr_left
            intro j _
            simp [List.getD_cons_succ]
          rw [hmap]
          exact hrec

/-- Entry `(a, b)` of the weighted-product matrix
`matmul (fv.T * w) (conj gv)` equals the quadrature sum
`sum_j w_j * fv[j,a] * conj(gv[j,b])`. -/
theorem matmul_scaled_entry (fv gv : Mat) (w : List ℚ) (n : ℕ) (a b : ℕ)
    (hfn : fv.length = n) (hgn : gv.length = n) (hw : w.length = n)
    (ha : a < widthOf fv) (hb : b < widthOf gv) :
    ((matmulG ((transposeM fv).map
          (fun row => List.zipWith (fun x y => gscaleQ y x) row w))
        (gv.map (List.map gconj))).getD a []).getD b 0 =
      gsum ((List.range n).map (fun j =>
        gmul (gscaleQ (w.getD j 0) ((fv.getD j []).getD a 0))
          (gconj ((gv.getD j []).getD b 0)))) := by
  have hsl : ((transposeM fv).map
      (fun row => List.zipWith (fun x y => gscaleQ y x) row w)).length = widthOf fv := by
    simp [transposeM]
  rw [matmulG, getD_map_of_lt _ _ a [] [] (by rw [hsl]; exact ha)]
  rw [getD_map_of_lt _ _ b 0 0 (by simp [widthOf_map_conj]; exact hb)]
  rw [List.getD_eq_getElem (List.range _) 0 (by simpa [widthOf_map_conj] using hb),
    List.getElem_range]
  rw [getD_map_of_lt _ _ a [] [] (by simpa [transposeM] using ha)]
  rw [transposeM, getD_map_of_lt _ _ a 0 [] (by simpa using ha),
    List.getD_eq_getElem (List.range _) 0 (by simpa using ha), List.getElem_range]
  rw [dotG_scaled_eq_sum n (colOf fv a) w (colOf (gv.map (List.map gconj)) b)
    (by simp [colOf, hfn]) hw (by simp [colOf, hgn])]
  congr 1
  apply List.map_congr_left
  intro j hj
  have hjn : j < n := List.mem_range.mp hj
  rw [getD_colOf fv a j (hfn ▸ hjn),
    getD_colOf (gv.map (List.map gconj)) b j (by simp [hgn, hjn]),
    getD_map_of_lt (List.map gconj) gv j [] [] (hgn ▸ hjn), getD_map_gconj]

/-- C7 (amended): entry `(a, b)` of the inner product is
`sum_j w_j * f(x_j) * conj(g(x_j))` over the grid of the combined length
`len(f) + len(g)` — the CONJUGATE is taken on the `g` side — and the raw
product is forced real exactly when every column of both inputs is
real-flagged. -/
theorem inner_entry_formula (pro : Mat → ℕ → List Bool → Mat × Mat)
    (qw : ℕ → List ℚ) (f g : Trig) (a b : ℕ)
    (hfn : (pro f.coeffs (f.coeffs.length + g.coeffs.length) f.isReal).2.length
      = f.coeffs.length + g.coeffs.length)
    (hgn : (pro g.coeffs (f.coeffs.length + g.coeffs.length) g.isReal).2.length
      = f.coeffs.length + g.coeffs.length)
    (hw : (qw (f.coeffs.length + g.coeffs.length)).length
      = f.coeffs.length + g.coeffs.length)
    (ha : a < widthOf (pro f.coeffs (f.coeffs.length + g.coeffs.length) f.isReal).2)
    (hb : b < widthOf (pro g.coeffs (f.coeffs.length + g.coeffs.length) g.isReal).2) :
    ((innerRaw pro qw f g).getD a []).getD b 0 =
      gsum ((List.range (f.coeffs.length + g.coeffs.length)).map (fun j =>
        gmul (gscaleQ ((qw (f.coeffs.length + g.coeffs.length)).getD j 0)
            (((pro f.coeffs (f.coeffs.length + g.coeffs.length) f.isReal).2.getD j
              []).getD a 0))
          (gconj (((pro g.coeffs (f.coeffs.length + g.coeffs.length) g.isReal).2.getD j
            []).getD b 0)))) ∧
    np_inner pro qw f g =
      (if (List.zipWith (fun x y => x && y) f.isReal g.isReal).all id then
        (innerRaw pro qw f g).map (List.map (fun z => (⟨z.re, 0⟩ : GQ)))
      else innerRaw pro qw f g) :=
  ⟨matmul_scaled_entry _ _ _ _ a b hfn hgn hw ha hb, rfl⟩

/-- A concrete prolongation primitive: it replicates the first value row to
the requested length, which is exact for the constant functions it is
applied to below. -/
def proConst (c : Mat) (n : ℕ) (_ : List Bool) : Mat × Mat :=
  (c, List.replicate n (c.headD []))

/-- The trapezoidal quadrature weights `2/n` of the periodic grid on an
interval of length 2. -/
def qwTrapz (n : ℕ) : List ℚ := List.replicate n (2 / (n : ℚ))

/-- The constant function `1j` as a length-1 trigtech. -/
def constIT : Trig :=
  { coeffs := [[⟨0, 1⟩]], values := [[⟨0, 1⟩]], ishappy := true, isReal := [false],
    eps := defEps, vscale := defEps, hscale := defEps }

/-- The constant function `1` as a length-1 trigtech. -/
def constOneT : Trig :=
  { coeffs := [[1]], values := [[1]], ishappy := true, isReal := [false],
    eps := defEps, vscale := defEps, hscale := defEps }

/-- Witness for C7 at the constant inputs `1j` and `1` (entry `(0,0)`). -/
theorem inner_entry_formula_w :
    ((innerRaw proConst qwTrapz constIT constOneT).getD 0 []).getD 0 0 =
      gsum ((List.range (constIT.coeffs.length + constOneT.coeffs.length)).map (fun j =>
        gmul (gscaleQ ((qwTrapz (constIT.coeffs.length + constOneT.coeffs.length)).getD j 0)
            (((proConst constIT.coeffs (constIT.coeffs.length + constOneT.coeffs.length)
              constIT.isReal).2.getD j []).getD 0 0))
          (gconj (((proConst constOneT.coeffs (constIT.coeffs.length + constOneT.coeffs.length)
            constOneT.isReal).2.getD j []).getD 0 0)))) ∧
    np_inner proConst qwTrapz constIT constOneT =
      (if (List.zipWith (fun x y => x && y) constIT.isReal constOneT.isReal).all id then
        (innerRaw proConst qwTrapz constIT constOneT).map
          (List.map (fun z => (⟨z.re, 0⟩ : GQ)))
      else innerRaw proConst qwTrapz constIT constOneT) :=
  inner_entry_formula proConst qwTrapz constIT constOneT 0 0 (by decide) (by decide)
    (by decide) (by decide) (by decide)

/-- A concrete prolongation primitive that duplicates the first value row
(exact for the length-1 constant functions it is applied to below, whose
samples on a two-point grid are that constant twice). -/
def proTwo (c : Mat) (_ : ℕ) (_ : List Bool) : Mat × Mat :=
  (c, [c.headD [], c.headD []])

/-- The trapezoidal weights `2/n` of the two-point periodic grid (`n = 2`,
the only length the counterexample requests). -/
def qwPair (_ : ℕ) : List ℚ := [1, 1]

/-- The index range of a single-column matrix. -/
theorem range_one_eq : List.range 1 = [0] := rfl

/-- Real part of the one scalar. -/
theorem gq_re_one : (1 : GQ).re = 1 := rfl

/-- Imaginary part of the one scalar. -/
theorem gq_im_one : (1 : GQ).im = 0 := rfl

/-- C7 counterexample: at the constant inputs `f = 1j`, `g = 1` the code's
inner product is `2j` (conjugate taken on the `g` side), while the claimed
formula with the conjugate on the `f` side gives `-2j`; the two disagree. -/
theorem inner_conj_side_ce :
    np_inner proTwo qwPair constIT constOneT = [[⟨0, 2⟩]] ∧
    innerClaimed proTwo qwPair constIT constOneT = [[⟨0, -2⟩]] ∧
    np_inner proTwo qwPair constIT constOneT ≠
      innerClaimed proTwo qwPair constIT constOneT := by
  have h2 : np_inner proTwo qwPair constIT constOneT = [[⟨0, 2⟩]] := by
    norm_num [np_inner, innerRaw, proTwo, qwPair, constIT, constOneT, matmulG,
      transposeM, colOf, widthOf, dotG, gsum, gscaleQ, gmul, gadd, gconj,
      gq_zero_def, GQ.mk.injEq, range_one_eq, List.getElem?_cons_zero,
      Option.getD_some, gq_re_zero, gq_im_zero, gq_re_one, gq_im_one]
  have h3 : innerClaimed proTwo qwPair constIT constOneT = [[⟨0, -2⟩]] := by
    norm_num [innerClaimed, proTwo, qwPair, constIT, constOneT, matmulG,
      transposeM, colOf, widthOf, dotG, gsum, gscaleQ, gmul, gadd, gconj,
      gq_zero_def, GQ.mk.injEq, range_one_eq, List.getElem?_cons_zero,
      Option.getD_some, gq_re_zero, gq_im_zero, gq_re_one, gq_im_one]
  refine ⟨h2, h3, ?_⟩
  intro h
  rw [h2, h3] at h
  simp only [List.cons.injEq, GQ.mk.injEq] at h
  exact absurd h.1.1.2 (by norm_num)
